import Mathlib

set_option maxRecDepth 8000

/-!
Shallow embedding of the Corpus-parser query engine (src/corpus.h, src/corpus.cpp)
and proofs about the claims of its specification.

Machine `int` values are modelled as `Int` (no overflow occurs at the sizes
involved), `uint32_t` dictionary identifiers as `Nat`, `std::vector` and
`std::span` as `List`.
-/

/-- Embeds `struct Token` (corpus.h).  The C++ field `lemma` is spelled
`lemma_` here because `lemma` is a reserved word in this environment. -/
structure Token where
  word : Nat
  c5 : Nat
  lemma_ : Nat
  pos : Nat
deriving DecidableEq

/-- The four attribute names accepted by `parse_clause` (corpus.cpp line 139).
`index_lookup` throws on any other string, and literals reaching the engine
always carry one of these four, so the embedding uses an enumeration. -/
inductive Attr where
  | word
  | c5
  | lemma_
  | pos
deriving DecidableEq

/-- Embeds `struct Literal` (corpus.h). -/
structure Literal where
  attribute_ : Attr
  value : Nat
  is_equality : Bool
deriving DecidableEq

/-- Embeds `using Clause = std::vector<Literal>` (corpus.h). -/
abbrev Clause := List Literal

/-- Embeds `using Query = std::vector<Clause>` (corpus.h). -/
abbrev Query := List Clause

/-- Embeds `struct Match` (corpus.h). -/
structure Match where
  sentence : Int
  pos : Int
  len : Int
deriving DecidableEq

/-- Embeds `struct DenseSet` (corpus.h): the interval of integers
`[first, last]`, empty when `last < first`. -/
structure DenseSet where
  first : Int
  last : Int
deriving DecidableEq

/-- Embeds `struct IndexSet` (corpus.h): a window into an attribute index
plus a shift. -/
structure IndexSet where
  elems : List Int
  shift : Int
deriving DecidableEq

/-- Embeds `struct ExplicitSet` (corpus.h). -/
structure ExplicitSet where
  elems : List Int
deriving DecidableEq

/-- Embeds `std::variant<DenseSet, IndexSet, ExplicitSet>` (corpus.h). -/
inductive SetRep where
  | dense : DenseSet → SetRep
  | idx : IndexSet → SetRep
  | expl : ExplicitSet → SetRep
deriving DecidableEq

/-- Embeds `struct MatchSet` (corpus.h). -/
structure MatchSet where
  set : SetRep
  complement : Bool
deriving DecidableEq

/-- Embeds `struct Corpus` (corpus.h).  `std::map<std::string, uint32_t>`
becomes an association list: the engine only uses keyed lookup and insertion
of fresh keys, never the iteration order of the map. -/
structure Corpus where
  tokens : List Token
  sentences : List Int
  index2string : List String
  string2index : List (String × Nat)
  word_index : List Int
  c5_index : List Int
  lemma_index : List Int
  pos_index : List Int
deriving DecidableEq

/-! ## Set algebra primitives (corpus.cpp lines 365-517) -/

/-- Embeds `binary_intersect_two_sets` (corpus.cpp 365-379): for each `x` of
`A` it probes sorted `B` for `x - A_shift + B_shift` with `std::binary_search`
(membership on a sorted vector) and pushes the raw `x` on a hit. -/
def binary_intersect_two_sets (A B : List Int) (A_shift B_shift : Int) : List Int :=
  A.filter (fun x => B.contains (x - A_shift + B_shift))

/-- Embeds `binary_diff_two_sets` (corpus.cpp 390-403): pushes the raw `x`
when the probe of `B` for `x - A_shift + B_shift` misses. -/
def binary_diff_two_sets (A B : List Int) (A_shift B_shift : Int) : List Int :=
  A.filter (fun x => !(B.contains (x - A_shift + B_shift)))

/-- Loop of `intersect_two_sets`, written with a fuel argument so that the
recursion is structural (the kernel can then evaluate it); each iteration of
the C++ `while` consumes at least one element of one list, so any fuel of at
least `A.length + B.length` gives the exact loop behaviour. -/
def intersect_go : Nat → List Int → List Int → Int → Int → List Int
  | 0, _, _, _, _ => []
  | _, [], _, _, _ => []
  | _, _ :: _, [], _, _ => []
  | fuel + 1, a :: ta, b :: tb, A_shift, B_shift =>
    if a - A_shift < b - B_shift then intersect_go fuel ta (b :: tb) A_shift B_shift
    else if b - B_shift < a - A_shift then intersect_go fuel (a :: ta) tb A_shift B_shift
    else (a - A_shift) :: intersect_go fuel ta tb A_shift B_shift

/-- Embeds `intersect_two_sets` (corpus.cpp 411-428): two-pointer merge that
pushes `A[p] - A_shift` on equality of the shifted values. -/
def intersect_two_sets (A B : List Int) (A_shift B_shift : Int) : List Int :=
  intersect_go (A.length + B.length) A B A_shift B_shift

/-- Loop of `diff_two_sets` with structural fuel; the trailing `while` that
flushes the rest of `A` is the `[]`-for-`B` case. -/
def diff_go : Nat → List Int → List Int → Int → Int → List Int
  | 0, _, _, _, _ => []
  | _, [], _, _, _ => []
  | fuel + 1, a :: ta, [], A_shift, B_shift =>
    (a - A_shift) :: diff_go fuel ta [] A_shift B_shift
  | fuel + 1, a :: ta, b :: tb, A_shift, B_shift =>
    if a - A_shift < b - B_shift then (a - A_shift) :: diff_go fuel ta (b :: tb) A_shift B_shift
    else if b - B_shift < a - A_shift then diff_go fuel (a :: ta) tb A_shift B_shift
    else diff_go fuel ta tb A_shift B_shift

/-- Embeds `diff_two_sets` (corpus.cpp 437-461): two-pointer walk pushing
`A[q] - A_shift` for elements only in `A`, plus the trailing remainder of `A`. -/
def diff_two_sets (A B : List Int) (A_shift B_shift : Int) : List Int :=
  diff_go (A.length + B.length) A B A_shift B_shift

/-- The integers of the interval `[p, last]` in ascending order; models the
`for(int i = first; i <= last; i++)` loops over a DenseSet. -/
def denseRange (p last : Int) : List Int :=
  (List.range (last + 1 - p).toNat).map (fun n => p + n)

/-- Loop of `diff_dense_x` (corpus.cpp 476-491) with structural fuel: joint
walk of the interval cursor `p` and the list `B`; when `B` is exhausted the
second `while` loop emits the remaining interval.  Every iteration either
advances `p` or consumes an element of `B`, so fuel
`(last + 1 - p).toNat + B.length` gives the exact loop behaviour. -/
def diff_dense_x_go : Nat → Int → Int → List Int → Int → List Int
  | _, p, last, [], _ => denseRange p last
  | 0, _, _, _ :: _, _ => []
  | fuel + 1, p, last, b :: tb, B_shift =>
    if p ≤ last then
      if p < b - B_shift then p :: diff_dense_x_go fuel (p + 1) last (b :: tb) B_shift
      else if p > b - B_shift then diff_dense_x_go fuel p last tb B_shift
      else diff_dense_x_go fuel (p + 1) last tb B_shift
    else []

/-- Embeds `diff_dense_x` (corpus.cpp 468-496). -/
def diff_dense_x (A : DenseSet) (B : List Int) (B_shift : Int) : List Int :=
  diff_dense_x_go ((A.last + 1 - A.first).toNat + B.length) A.first A.last B B_shift

/-- Embeds `diff_x_denseset` (corpus.cpp 504-517): keeps the shifted elements
of `A` that fall outside `[B.first, B.last]`. -/
def diff_x_denseset (A : List Int) (B : DenseSet) (A_shift : Int) : List Int :=
  (A.map (fun x => x - A_shift)).filter
    (fun s => decide (s < B.first) || decide (s > B.last))

/-! ## Pairwise operations on the three representations (corpus.cpp 520-649).
The C++ names are all overloads of `intersection` and `difference`; the
two-letter suffix here records the operand representations
(D = DenseSet, I = IndexSet, E = ExplicitSet). -/

/-- Embeds `intersection(const ExplicitSet&, const ExplicitSet&)` (520-527). -/
def intersectionEE (A B : ExplicitSet) : ExplicitSet :=
  if A.elems.length * 10 ≤ B.elems.length then
    ⟨binary_intersect_two_sets A.elems B.elems 0 0⟩
  else if A.elems.length > B.elems.length * 10 then
    ⟨binary_intersect_two_sets B.elems A.elems 0 0⟩
  else ⟨intersect_two_sets A.elems B.elems 0 0⟩

/-- Embeds `difference(const ExplicitSet&, const ExplicitSet&)` (530-535). -/
def differenceEE (A B : ExplicitSet) : ExplicitSet :=
  if A.elems.length ≥ B.elems.length * 10 then
    ⟨binary_diff_two_sets A.elems B.elems 0 0⟩
  else ⟨diff_two_sets A.elems B.elems 0 0⟩

/-- Embeds `intersection(const IndexSet&, const IndexSet&)` (537-545). -/
def intersectionII (A B : IndexSet) : ExplicitSet :=
  if A.elems.length * 10 ≤ B.elems.length then
    ⟨binary_intersect_two_sets A.elems B.elems A.shift B.shift⟩
  else if A.elems.length > B.elems.length * 10 then
    ⟨binary_intersect_two_sets B.elems A.elems B.shift A.shift⟩
  else ⟨intersect_two_sets A.elems B.elems A.shift B.shift⟩

/-- Embeds `difference(const IndexSet&, const IndexSet&)` (547-552). -/
def differenceII (A B : IndexSet) : ExplicitSet :=
  if A.elems.length ≥ B.elems.length * 10 then
    ⟨binary_diff_two_sets A.elems B.elems A.shift B.shift⟩
  else ⟨diff_two_sets A.elems B.elems A.shift B.shift⟩

/-- Embeds `intersection(const DenseSet&, const DenseSet&)` (554-559). -/
def intersectionDD (A B : DenseSet) : DenseSet :=
  ⟨max A.first B.first, min A.last B.last⟩

/-- Embeds `difference(const DenseSet&, const DenseSet&)` (561-570) exactly
as written, including the prefix-only handling. -/
def differenceDD (A B : DenseSet) : DenseSet :=
  if A.last ≤ B.first ∨ A.first ≥ B.last then A
  else if A.first < B.first then ⟨A.first, B.first⟩
  else ⟨0, 0⟩

/-- Embeds `intersection(const IndexSet&, const ExplicitSet&)` (573-581). -/
def intersectionIE (A : IndexSet) (B : ExplicitSet) : ExplicitSet :=
  if A.elems.length * 10 ≤ B.elems.length then
    ⟨binary_intersect_two_sets A.elems B.elems A.shift 0⟩
  else if A.elems.length > B.elems.length * 10 then
    ⟨binary_intersect_two_sets B.elems A.elems 0 A.shift⟩
  else ⟨intersect_two_sets A.elems B.elems A.shift 0⟩

/-- Embeds `intersection(const ExplicitSet&, const IndexSet&)` (582-584). -/
def intersectionEI (A : ExplicitSet) (B : IndexSet) : ExplicitSet :=
  intersectionIE B A

/-- Embeds `difference(const IndexSet&, const ExplicitSet&)` (586-591). -/
def differenceIE (A : IndexSet) (B : ExplicitSet) : ExplicitSet :=
  if A.elems.length ≥ B.elems.length * 10 then
    ⟨binary_diff_two_sets A.elems B.elems A.shift 0⟩
  else ⟨diff_two_sets A.elems B.elems A.shift 0⟩

/-- Embeds `difference(const ExplicitSet&, const IndexSet&)` (592-598). -/
def differenceEI (A : ExplicitSet) (B : IndexSet) : ExplicitSet :=
  if A.elems.length ≥ B.elems.length * 10 then
    ⟨binary_diff_two_sets A.elems B.elems 0 B.shift⟩
  else ⟨diff_two_sets A.elems B.elems 0 B.shift⟩

/-- Embeds `intersection(const DenseSet&, const ExplicitSet&)` (601-610):
walks `B`, stopping at the first element above `A.last` and pushing every
element seen before that point.  Note there is no check against `A.first`. -/
def intersectionDE (A : DenseSet) (B : ExplicitSet) : ExplicitSet :=
  ⟨B.elems.takeWhile (fun i => decide (i ≤ A.last))⟩

/-- Embeds `intersection(const ExplicitSet&, const DenseSet&)` (612-614). -/
def intersectionED (A : ExplicitSet) (B : DenseSet) : ExplicitSet :=
  intersectionDE B A

/-- Embeds `difference(const DenseSet&, const ExplicitSet&)` (616-620). -/
def differenceDE (A : DenseSet) (B : ExplicitSet) : ExplicitSet :=
  ⟨diff_dense_x A B.elems 0⟩

/-- Embeds `difference(const ExplicitSet&, const DenseSet&)` (622-625). -/
def differenceED (A : ExplicitSet) (B : DenseSet) : ExplicitSet :=
  ⟨diff_x_denseset A.elems B 0⟩

/-- Embeds `intersection(const IndexSet&, const DenseSet&)` (628-636):
keeps `i - A.shift` whenever it falls inside `[B.first, B.last]`. -/
def intersectionID (A : IndexSet) (B : DenseSet) : ExplicitSet :=
  ⟨(A.elems.filter (fun i =>
      decide (i - A.shift ≤ B.last) && decide (B.first ≤ i - A.shift))).map
    (fun i => i - A.shift)⟩

/-- Embeds `intersection(const DenseSet&, const IndexSet&)` (638-640). -/
def intersectionDI (A : DenseSet) (B : IndexSet) : ExplicitSet :=
  intersectionID B A

/-- Embeds `difference(const DenseSet&, const IndexSet&)` (642-645). -/
def differenceDI (A : DenseSet) (B : IndexSet) : ExplicitSet :=
  ⟨diff_dense_x A B.elems B.shift⟩

/-- Embeds `difference(const IndexSet&, const DenseSet&)` (646-649). -/
def differenceID (A : IndexSet) (B : DenseSet) : ExplicitSet :=
  ⟨diff_x_denseset A.elems B A.shift⟩

/-- Embeds the `std::visit` dispatch of `intersection` over the variant pair
(corpus.cpp 667-686): each combination resolves to the matching overload. -/
def interSet : SetRep → SetRep → SetRep
  | .dense A, .dense B => .dense (intersectionDD A B)
  | .dense A, .idx B => .expl (intersectionDI A B)
  | .dense A, .expl B => .expl (intersectionDE A B)
  | .idx A, .dense B => .expl (intersectionID A B)
  | .idx A, .idx B => .expl (intersectionII A B)
  | .idx A, .expl B => .expl (intersectionIE A B)
  | .expl A, .dense B => .expl (intersectionED A B)
  | .expl A, .idx B => .expl (intersectionEI A B)
  | .expl A, .expl B => .expl (intersectionEE A B)

/-- Embeds the `std::visit` dispatch of `difference` over the variant pair. -/
def diffSet : SetRep → SetRep → SetRep
  | .dense A, .dense B => .dense (differenceDD A B)
  | .dense A, .idx B => .expl (differenceDI A B)
  | .dense A, .expl B => .expl (differenceDE A B)
  | .idx A, .dense B => .expl (differenceID A B)
  | .idx A, .idx B => .expl (differenceII A B)
  | .idx A, .expl B => .expl (differenceIE A B)
  | .expl A, .dense B => .expl (differenceED A B)
  | .expl A, .idx B => .expl (differenceEI A B)
  | .expl A, .expl B => .expl (differenceEE A B)

/-- Embeds `intersection(const MatchSet&, const MatchSet&)` (corpus.cpp
661-689).  In the `A.complement` branch the C++ visits `B.set, A.set` in that
order, so the difference taken is `b - a`. -/
def intersectionMS (A B : MatchSet) : MatchSet :=
  if A.complement && B.complement then ⟨interSet A.set B.set, true⟩
  else if A.complement then ⟨diffSet B.set A.set, false⟩
  else if B.complement then ⟨diffSet A.set B.set, false⟩
  else ⟨interSet A.set B.set, false⟩

/-- Embeds `find_set_size` (corpus.cpp 810-828). -/
def find_set_size (s : MatchSet) : Int :=
  match s.set with
  | .dense d => d.last - d.first + 1
  | .idx i => (i.elems.length : Int)
  | .expl e => (e.elems.length : Int)

/-- Stable insertion of `x` after every element `y` with `le y x`. -/
def insertLe {α : Type} (le : α → α → Bool) (x : α) : List α → List α
  | [] => [x]
  | y :: t => if le y x then y :: insertLe le x t else x :: y :: t

/-- Stable insertion sort.  Models `std::stable_sort`, and `std::sort` up to
the order of equivalent elements, which the standard leaves unspecified; the
stable order is one of the permitted outcomes. -/
def stable_sort {α : Type} (le : α → α → Bool) (l : List α) : List α :=
  l.foldl (fun acc x => insertLe le x acc) []

/-- The value-initialized `MatchSet dense_set;` of `intersect_with_plan`:
`std::variant` value-initializes its first alternative, `DenseSet{0,0}`.
It is returned only when the input list is empty, which the evaluator never
produces (clauses and queries reaching the planner are non-empty). -/
def default_match_set : MatchSet := ⟨.dense ⟨0, 0⟩, false⟩

/-- First loop of `intersect_with_plan` (corpus.cpp 845-863): folds all
DenseSet-represented MatchSets together with the MatchSet-level intersection
and collects the others in order. -/
def collectDense (sets : List MatchSet) : Option MatchSet × List MatchSet :=
  sets.foldl
    (fun acc s =>
      match s.set with
      | .dense _ =>
        (match acc.1 with
         | none => (some s, acc.2)
         | some d => (some (intersectionMS d s), acc.2))
      | _ => (acc.1, acc.2 ++ [s]))
    (none, [])

/-- Embeds `intersect_with_plan` (corpus.cpp 840-888): fold the dense sets,
sort the rest ascending by `find_set_size`, reduce left-to-right, and
intersect a surviving dense fold last. -/
def intersect_with_plan (sets : List MatchSet) : MatchSet :=
  let pr := collectDense sets
  let sorted := stable_sort (fun a b => decide (find_set_size a ≤ find_set_size b)) pr.2
  match sorted with
  | [] => pr.1.getD default_match_set
  | s :: rest =>
    let r := rest.foldl intersectionMS s
    match pr.1 with
    | some d => intersectionMS r d
    | none => r

/-! ## Attribute indices and lookup (corpus.cpp 725-802) -/

/-- Default token used for (never-occurring) out-of-range index reads. -/
def defaultToken : Token := ⟨0, 0, 0, 0⟩

/-- Reads the attribute selected by the member pointer `uint32_t Token::*`. -/
def attr_of (t : Token) : Attr → Nat
  | .word => t.word
  | .c5 => t.c5
  | .lemma_ => t.lemma_
  | .pos => t.pos

/-- Reads `corpus.tokens[i]` for an index produced by `build_index`, which is
always in range. -/
def tokenAt (tokens : List Token) (i : Int) : Token :=
  tokens.getD i.toNat defaultToken

/-- Embeds `build_index` (corpus.cpp 725-736): the positions `0..T-1` stably
sorted by the chosen attribute. -/
def build_index (tokens : List Token) (a : Attr) : List Int :=
  stable_sort
    (fun i j => decide (attr_of (tokenAt tokens i) a ≤ attr_of (tokenAt tokens j) a))
    ((List.range tokens.length).map (fun n => (n : Int)))

/-- Embeds `build_indices` (corpus.cpp 742-748). -/
def build_indices (c : Corpus) : Corpus :=
  { c with
    word_index := build_index c.tokens .word
    c5_index := build_index c.tokens .c5
    lemma_index := build_index c.tokens .lemma_
    pos_index := build_index c.tokens .pos }

/-- Selects the per-attribute index, as the pointer assignments of
`index_lookup` do (corpus.cpp 760-787). -/
def attr_index (c : Corpus) : Attr → List Int
  | .word => c.word_index
  | .c5 => c.c5_index
  | .lemma_ => c.lemma_index
  | .pos => c.pos_index

/-- Embeds `index_lookup` (corpus.cpp 757-802): `std::lower_bound` and
`std::upper_bound` over the attribute-sorted index select the contiguous run
whose tokens carry `value`; on such a sorted index this run is obtained by
dropping the strictly-smaller prefix and taking while not strictly greater.
The returned IndexSet carries shift 0. -/
def index_lookup (c : Corpus) (a : Attr) (value : Nat) : IndexSet :=
  let idx := attr_index c a
  ⟨(idx.dropWhile (fun i => decide (attr_of (tokenAt c.tokens i) a < value))).takeWhile
      (fun i => !decide (value < attr_of (tokenAt c.tokens i) a)), 0⟩

/-! ## Query evaluation (corpus.cpp 897-1015) -/

/-- Embeds `match_set(const Corpus&, const Literal&, int)` (corpus.cpp
897-910): look up the posting list, stamp the shift, and set the complement
bit for inequality literals. -/
def match_set_literal (c : Corpus) (lit : Literal) (shift : Int) : MatchSet :=
  let is0 := index_lookup c lit.attribute_ lit.value
  ⟨.idx { is0 with shift := shift }, !lit.is_equality⟩

/-- Embeds `match_set(const Corpus&, const Clause&, int)` (corpus.cpp
919-935): an empty clause yields the whole-corpus DenseSet, otherwise the
per-literal sets are planned and intersected. -/
def match_set_clause (c : Corpus) (cl : Clause) (shift : Int) : MatchSet :=
  if cl.isEmpty then ⟨.dense ⟨0, (c.tokens.length : Int) - 1⟩, false⟩
  else intersect_with_plan (cl.map (fun lit => match_set_literal c lit shift))

/-- Embeds `match_set(const Corpus&, const Query&)` (corpus.cpp 943-966).
`return {};` on the empty query aggregate-initializes the MatchSet, i.e.
yields `(DenseSet{0,0}, false)`.  Clause `j` is evaluated at shift `j`, and a
surviving complement bit is resolved against the whole-corpus DenseSet. -/
def match_set_query (c : Corpus) (q : Query) : MatchSet :=
  if q.isEmpty then ⟨.dense ⟨0, 0⟩, false⟩
  else
    let sets := q.enum.map (fun p => match_set_clause c p.2 (p.1 : Int))
    let s := intersect_with_plan sets
    if s.complement then
      intersectionMS ⟨.dense ⟨0, (c.tokens.length : Int) - 1⟩, false⟩ s
    else s

/-- Embeds the `std::upper_bound` sentence attribution used by `match2` and
`match_single`: the number of directory entries `≤ p`, minus one.  On the
ascending sentence directory the binary search returns exactly the end of the
`≤ p` prefix. -/
def sentence_index (c : Corpus) (p : Int) : Int :=
  ((c.sentences.takeWhile (fun s => decide (s ≤ p))).length : Int) - 1

/-- Embeds `match2` (corpus.cpp 974-1015).  The DenseSet and IndexSet
branches push `{sentence_index, i, 1}` verbatim; only the ExplicitSet branch
overwrites `len` with `query.size()`. -/
def match2 (c : Corpus) (q : Query) : List Match :=
  match (match_set_query c q).set with
  | .dense d => (denseRange d.first d.last).map (fun i => ⟨sentence_index c i, i, 1⟩)
  | .idx s => s.elems.map (fun i => ⟨sentence_index c i, i, 1⟩)
  | .expl s => s.elems.map (fun i => ⟨sentence_index c i, i, (q.length : Int)⟩)

/-! ## Dictionary (corpus.cpp 703-717) -/

/-- Keyed lookup in the association list modelling `std::map::find`. -/
def lookupStr (m : List (String × Nat)) (s : String) : Option Nat :=
  match m with
  | [] => none
  | p :: t => if p.1 = s then some p.2 else lookupStr t s

/-- Embeds `insert_and_get_index` (corpus.cpp 703-717).  The C++ mutates the
corpus and returns the index; the embedding returns both. -/
def insert_and_get_index (c : Corpus) (s : String) : Nat × Corpus :=
  match lookupStr c.string2index s with
  | some i => (i, c)
  | none =>
    let new_index := c.index2string.length
    (new_index,
     { c with
       index2string := c.index2string ++ [s]
       string2index := c.string2index ++ [(s, new_index)] })

/-- The corpus before ingestion: every container empty. -/
def emptyCorpus : Corpus := ⟨[], [], [], [], [], [], [], []⟩

/-- Successive calls to `insert_and_get_index`, as `load_corpus` performs
while ingesting rows. -/
def insertAll (c : Corpus) (ss : List String) : Corpus :=
  ss.foldl (fun acc s => (insert_and_get_index acc s).2) c

/-- The distinct strings of `ss` in order of first occurrence. -/
def firstOccurs (ss : List String) : List String :=
  ss.foldl (fun acc s => if s ∈ acc then acc else acc ++ [s]) []

/-! ## Clause splitting (corpus.cpp 42-87) -/

/-- The three `std::invalid_argument` conditions of `split_clauses`. -/
inductive SplitErr where
  | nested
  | unmatched
  | unclosed
deriving DecidableEq

/-- The scanning loop of `split_clauses` (corpus.cpp 48-84) with its state:
collected clauses, current clause buffer, and the `in_clause` flag.
`nested` is the exception for an opening bracket inside a clause, `unmatched`
for a closing bracket outside one, `unclosed` for a clause still open at the
end of the input. -/
def split_clauses_go (acc : List (List Char)) (cur : List Char) (inClause : Bool) :
    List Char → Except SplitErr (List (List Char))
  | [] => if inClause then .error .unclosed else .ok acc
  | ch :: rest =>
    if ch = '[' then
      if inClause then .error .nested else split_clauses_go acc [] true rest
    else if ch = ']' then
      if inClause then split_clauses_go (acc ++ [cur]) [] false rest
      else .error .unmatched
    else if inClause then split_clauses_go acc (cur ++ [ch]) true rest
    else split_clauses_go acc cur false rest

/-- Embeds `split_clauses` (corpus.cpp 42-87) on the character list of the
input string. -/
def split_clauses (text : List Char) : Except SplitErr (List (List Char)) :=
  split_clauses_go [] [] false text

/-- A clause body free of both brackets. -/
def NoBracket (body : List Char) : Prop := ∀ ch ∈ body, ch ≠ '[' ∧ ch ≠ ']'

/-- Declarative well-formedness of a query string together with its clause
bodies: any characters outside brackets are junk that contributes nothing,
and each bracketed bracket-free body contributes exactly one clause.  A
string admits this decomposition exactly when none of the three error
conditions of `split_clauses` occurs. -/
inductive WellFormed : List Char → List (List Char) → Prop where
  | nil : WellFormed [] []
  | junk (ch : Char) (r : List Char) (cs : List (List Char)) :
      ch ≠ '[' → ch ≠ ']' → WellFormed r cs → WellFormed (ch :: r) cs
  | clause (body r : List Char) (cs : List (List Char)) :
      NoBracket body → WellFormed r cs →
      WellFormed ('[' :: (body ++ ']' :: r)) (body :: cs)

/-! ## Spec-side definitions and concrete fixtures -/

/-- Modelled from the spec wording of the shift-homomorphism law: the set
`\x7b x : x ∈ X ∧ x + d ∈ Y \x7d` in the left operand's coordinates. -/
def spec_shift_inter (X Y : List Int) (d : Int) : List Int :=
  X.filter (fun x => Y.contains (x + d))

/-- Membership in the interval denoted by a DenseSet. -/
abbrev denseMem (d : DenseSet) (x : Int) : Prop := d.first ≤ x ∧ x ≤ d.last

/-- A corpus as `load_corpus` leaves it: tokens, sentence directory, and the
four attribute indices built by `build_indices`. -/
def mkCorpus (tokens : List Token) (sentences : List Int) : Corpus :=
  build_indices ⟨tokens, sentences, [], [], [], [], [], []⟩

/-- One-token fixture. -/
def corpus1 : Corpus := mkCorpus [⟨0, 0, 0, 0⟩] [0]

/-- Two tokens in a single sentence. -/
def corpus2 : Corpus := mkCorpus [⟨0, 0, 0, 0⟩, ⟨1, 1, 1, 1⟩] [0]

/-- Three tokens split into sentences `\x7b0,1\x7d` and `\x7b2\x7d`; the word
identifiers are 0, 1, 2 in position order. -/
def corpus3 : Corpus := mkCorpus [⟨0, 0, 0, 0⟩, ⟨1, 1, 1, 1⟩, ⟨2, 2, 2, 2⟩] [0, 2]

/-- Two empty clauses. -/
def qEmpty2 : Query := [[], []]

/-- The two-clause query `[word=1][word=2]`: in `corpus3` it matches starting
at position 1, spanning positions 1 and 2, which lie in different sentences. -/
def qBC : Query := [[⟨.word, 1, true⟩], [⟨.word, 2, true⟩]]

/-- Dictionary consistency invariant: every mapped pair points at the
matching entry of `index2string`, and every entry of `index2string` maps
back to its own position. -/
def DictInv (c : Corpus) : Prop :=
  (∀ s i, lookupStr c.string2index s = some i →
      i < c.index2string.length ∧ c.index2string.getD i "" = s) ∧
  (∀ i, i < c.index2string.length →
      lookupStr c.string2index (c.index2string.getD i "") = some i)

/-! ## Claim theorems -/

/-- C1: refuting evaluation.  On the two-token corpus and the non-empty
query of two empty clauses the final match set is a DenseInterval and
`match2` emits every Match with `len = 1`, although the query has 2 clauses:
only the ExplicitSet branch of `match2` writes `query.size()` into `len`,
the DenseSet and IndexSet branches hard-code 1. -/
theorem C1_len_code_eval :
    match2 corpus2 qEmpty2 = [⟨0, 0, 1⟩, ⟨0, 1, 1⟩] ∧ qEmpty2.length = 2 := by
  decide

/-- C2: counterexample.  In `corpus3` (sentences are positions 0-1 and 2)
the query `[word=1][word=2]` yields the single match `(0, 1, 2)`, whose span
`p + L - 1 = 2` is not below `S[1] = 2`: the matched span leaves sentence 0,
so the claimed within-sentence invariant fails on the code. -/
theorem C2_counterexample :
    match2 corpus3 qBC = [⟨0, 1, 2⟩] ∧
    ¬((1 : Int) + 2 - 1 < corpus3.sentences.getD 1 0) := by
  decide

/-- C3: refuting evaluation.  `match_set` on the empty query returns the
value-initialized MatchSet, whose variant holds `DenseSet\x7b0,0\x7d` — the
singleton interval containing position 0, not the empty set — so `match2`
on the one-token corpus emits one match instead of none. -/
theorem C3_empty_query_code_eval :
    match_set_query corpus1 [] = ⟨.dense ⟨0, 0⟩, false⟩ ∧
    match2 corpus1 [] = [⟨0, 0, 1⟩] := by
  decide

/-- C4: refuting evaluation.  With `X = \x7b0..10\x7d` at shift 0 and
`Y = \x7b5\x7d` at shift 2, the size-ratio rule picks the binary probe with
the right operand as driver, which emits the raw element 5 instead of the
claimed `\x7b x : x ∈ X ∧ x + 2 ∈ Y \x7d = \x7b3\x7d`. -/
theorem C4_shift_code_eval :
    intersectionII ⟨[0, 1, 2, 3, 4, 5, 6, 7, 8, 9, 10], 0⟩ ⟨[5], 2⟩ = ⟨[5]⟩ ∧
    spec_shift_inter [0, 1, 2, 3, 4, 5, 6, 7, 8, 9, 10] [5] 2 = [3] ∧
    ([5] : List Int) ≠ [3] := by
  decide

/-- C5: refuting evaluation.  At `A = [5]`, `B = [3]`, shifts `(2, 0)` the
linear merge emits `x - A_shift = 3` while the binary probe emits the raw
`x = 5`; likewise for the differences at `A = [5, 6]`.  The two algorithm
families therefore do not agree for nonzero left shifts. -/
theorem C5_algorithm_divergence_code_eval :
    intersect_two_sets [5] [3] 2 0 = [3] ∧
    binary_intersect_two_sets [5] [3] 2 0 = [5] ∧
    diff_two_sets [5, 6] [3] 2 0 = [4] ∧
    binary_diff_two_sets [5, 6] [3] 2 0 = [6] := by
  decide

/-- C6: the MatchSet intersection realizes the four-case complement table:
`(a ∩ b, 0)`, `(a − b, 0)`, `(b − a, 0)`, `(a ∩ b, 1)` for complement bits
`00`, `01`, `10`, `11`, where `∩` and `−` are the variant-dispatched set
operations. -/
theorem C6_matchset_table :
    ∀ a b : SetRep,
      intersectionMS ⟨a, false⟩ ⟨b, false⟩ = ⟨interSet a b, false⟩ ∧
      intersectionMS ⟨a, false⟩ ⟨b, true⟩ = ⟨diffSet a b, false⟩ ∧
      intersectionMS ⟨a, true⟩ ⟨b, false⟩ = ⟨diffSet b a, false⟩ ∧
      intersectionMS ⟨a, true⟩ ⟨b, true⟩ = ⟨interSet a b, true⟩ := by
  intro a b
  exact ⟨rfl, rfl, rfl, rfl⟩

/-- C7: refuting evaluation.  For `A = [0,5]` and `B = [2,3]` (so `B` is
strictly inside `A`) the code returns the single interval `[0,2]`: it still
contains 2, which lies in `B` and must be removed, and misses 4, which lies
in `A − B`; the claimed two-interval result is never produced.  The claimed
prefix case is also off by one (`B.first` instead of `B.first - 1`). -/
theorem C7_dense_difference_code_eval :
    differenceDD ⟨0, 5⟩ ⟨2, 3⟩ = ⟨0, 2⟩ ∧
    denseMem ⟨2, 3⟩ 2 ∧ denseMem (differenceDD ⟨0, 5⟩ ⟨2, 3⟩) 2 ∧
    ¬ denseMem (differenceDD ⟨0, 5⟩ ⟨2, 3⟩) 4 := by
  refine ⟨rfl, by decide, by decide, by decide⟩

/-- C8: counterexample.  For the interval `[2,5]` and the sorted set
`[0,3]`, the Dense-with-Explicit intersection returns `[0,3]` unchanged:
the element 0 lies below `first = 2` yet is not excluded, refuting the
claim that elements below `first` are excluded just as those above `last`. -/
theorem C8_counterexample :
    intersectionDE ⟨2, 5⟩ ⟨[0, 3]⟩ = ⟨[0, 3]⟩ ∧
    (0 : Int) ∈ (intersectionDE ⟨2, 5⟩ ⟨[0, 3]⟩).elems ∧ (0 : Int) < 2 := by
  decide

/-- Heads of `dropWhile` results falsify the predicate. -/
theorem dropWhile_head_false {α : Type} (p : α → Bool) (l : List α) (x : α) (t : List α)
    (h : l.dropWhile p = x :: t) : p x = false := by
  induction l with
  | nil => simp [List.dropWhile] at h
  | cons y ys ih =>
    cases hy : p y with
    | true => rw [List.dropWhile_cons_of_pos hy] at h; exact ih h
    | false =>
      rw [List.dropWhile_cons_of_neg (by simp [hy])] at h
      cases h
      exact hy

/-- Every match emitted by `match2` carries the sentence produced by the
upper-bound attribution of its own start position: all three representation
branches push `sentence_index` of the emitted position. -/
theorem match2_sentence_eq (c : Corpus) (q : Query) (m : Match)
    (h : m ∈ match2 c q) : m.sentence = sentence_index c m.pos := by
  unfold match2 at h
  split at h <;>
  · obtain ⟨i, -, rfl⟩ := List.mem_map.1 h
    rfl

/-- Correctness of the upper-bound sentence attribution: when the directory
starts at 0 and the position is non-negative, the attributed sentence `k`
satisfies `S[k] ≤ p` and, when `k+1` exists, `p < S[k+1]`. -/
theorem sentence_index_bounds (c : Corpus) (p : Int)
    (hhead : c.sentences.head? = some 0) (hp : 0 ≤ p) :
    0 ≤ sentence_index c p ∧
    c.sentences.getD (sentence_index c p).toNat 0 ≤ p ∧
    ((sentence_index c p).toNat + 1 < c.sentences.length →
      p < c.sentences.getD ((sentence_index c p).toNat + 1) 0) := by
  set T := c.sentences.takeWhile (fun s => decide (s ≤ p)) with hT
  set D := c.sentences.dropWhile (fun s => decide (s ≤ p)) with hD
  have hsi : sentence_index c p = (T.length : Int) - 1 := rfl
  have htd : T ++ D = c.sentences := List.takeWhile_append_dropWhile _ _
  have htne : T ≠ [] := by
    cases hs : c.sentences with
    | nil => rw [hs] at hhead; exact absurd hhead (by simp)
    | cons a t =>
      rw [hs] at hhead
      have ha : a = 0 := by simpa using hhead
      rw [hT, hs, ha, List.takeWhile_cons_of_pos (by simpa using hp)]
      simp
  have hlen : 1 ≤ T.length := List.length_pos.2 htne
  have hall : ∀ x ∈ T, x ≤ p := by
    intro x hx
    rw [hT] at hx
    have h1 := @List.mem_takeWhile_imp Int (fun s => decide (s ≤ p)) c.sentences x hx
    exact of_decide_eq_true h1
  have htn : (sentence_index c p).toNat = T.length - 1 := by
    rw [hsi]; omega
  have h2 : c.sentences.getD (T.length - 1) 0 ≤ p := by
    rw [← htd, List.getD_append _ _ _ _ (by omega)]
    apply hall
    rw [List.getD_eq_getElem _ _ (by omega)]
    exact List.getElem_mem _
  have h3 : T.length - 1 + 1 < c.sentences.length →
      p < c.sentences.getD (T.length - 1 + 1) 0 := by
    intro hlt
    have hTl : T.length - 1 + 1 = T.length := by omega
    rw [hTl] at hlt ⊢
    rw [← htd, List.getD_append_right _ _ _ _ (le_refl _), Nat.sub_self]
    have hDne : D ≠ [] := by
      intro hnil
      rw [← htd, hnil, List.length_append] at hlt
      simp at hlt
    cases hDc : D with
    | nil => exact absurd hDc hDne
    | cons x dt =>
      have hx := dropWhile_head_false (fun s : Int => decide (s ≤ p))
        c.sentences x dt (by rw [← hD]; exact hDc)
      simp only [decide_eq_false_iff_not, not_le] at hx
      simpa using hx
  exact ⟨by rw [hsi]; omega, by rw [htn]; exact h2, by rw [htn]; exact h3⟩

/-- C2 (amended): every match emitted by `match2` with a non-negative start
position is attributed to the sentence `k` with `S[k] ≤ p` and `p < S[k+1]`
whenever `k+1` exists.  The span condition of the original claim fails (see
the counterexample: spans may cross sentence boundaries), and start
positions produced through shifted inequality-literal differences can even
be negative, whence the non-negativity hypothesis. -/
theorem C2_amended_attribution (c : Corpus) (q : Query) (m : Match)
    (hmem : m ∈ match2 c q) (hhead : c.sentences.head? = some 0)
    (hp : 0 ≤ m.pos) :
    0 ≤ m.sentence ∧
    c.sentences.getD m.sentence.toNat 0 ≤ m.pos ∧
    (m.sentence.toNat + 1 < c.sentences.length →
      m.pos < c.sentences.getD (m.sentence.toNat + 1) 0) := by
  rw [match2_sentence_eq c q m hmem]
  exact sentence_index_bounds c m.pos hhead hp

/-- Witness for the amended C2 theorem at the fixture corpus and query. -/
theorem C2_amended_witness :
    (⟨0, 1, 2⟩ : Match) ∈ match2 corpus3 qBC ∧
    corpus3.sentences.head? = some 0 ∧
    (0 ≤ (⟨0, 1, 2⟩ : Match).sentence ∧
     corpus3.sentences.getD (⟨0, 1, 2⟩ : Match).sentence.toNat 0 ≤ (⟨0, 1, 2⟩ : Match).pos ∧
     ((⟨0, 1, 2⟩ : Match).sentence.toNat + 1 < corpus3.sentences.length →
       (⟨0, 1, 2⟩ : Match).pos <
         corpus3.sentences.getD ((⟨0, 1, 2⟩ : Match).sentence.toNat + 1) 0)) :=
  ⟨by decide, by decide,
   C2_amended_attribution corpus3 qBC ⟨0, 1, 2⟩ (by decide) (by decide) (by decide)⟩

/-- On a list sorted non-decreasingly, membership in the prefix taken while
below a bound is exactly membership plus the bound. -/
theorem mem_takeWhile_le_iff (a : Int) (l : List Int) (x : Int)
    (hs : l.Pairwise (· ≤ ·)) :
    x ∈ l.takeWhile (fun i => decide (i ≤ a)) ↔ x ∈ l ∧ x ≤ a := by
  induction l with
  | nil => simp
  | cons y t ih =>
    rw [List.pairwise_cons] at hs
    by_cases hy : y ≤ a
    · rw [List.takeWhile_cons_of_pos (by simpa using hy)]
      simp only [List.mem_cons]
      rw [ih hs.2]
      constructor
      · rintro (rfl | ⟨hx, hxa⟩)
        · exact ⟨Or.inl rfl, hy⟩
        · exact ⟨Or.inr hx, hxa⟩
      · rintro ⟨rfl | hx, hxa⟩
        · exact Or.inl rfl
        · exact Or.inr ⟨hx, hxa⟩
    · rw [List.takeWhile_cons_of_neg (by simpa using hy)]
      simp only [List.not_mem_nil, false_iff, not_and, List.mem_cons]
      rintro (rfl | hx)
      · intro hxa; exact hy hxa
      · intro hxa; exact hy (le_trans (hs.1 x hx) hxa)

/-- C8 (amended): the IndexSet-with-DenseSet intersection selects exactly the
shifted elements lying inside `[first, last]`, as claimed; the
DenseSet-with-ExplicitSet intersection enforces only the upper bound: for a
sorted operand it keeps exactly the elements `≤ last`, retaining elements
below `first` (in the engine every DenseSet has `first = 0`, where the two
readings coincide, but the claim quantifies over all intervals and fails —
see the counterexample). -/
theorem C8_amended_characterization (Dn : DenseSet) (X : ExplicitSet)
    (A : IndexSet) (x : Int) (hs : X.elems.Pairwise (· ≤ ·)) :
    (x ∈ (intersectionDE Dn X).elems ↔ x ∈ X.elems ∧ x ≤ Dn.last) ∧
    (x ∈ (intersectionID A Dn).elems ↔
      ∃ y ∈ A.elems, x = y - A.shift ∧ Dn.first ≤ x ∧ x ≤ Dn.last) := by
  constructor
  · exact mem_takeWhile_le_iff Dn.last X.elems x hs
  · simp only [intersectionID, List.mem_map, List.mem_filter]
    constructor
    · rintro ⟨y, ⟨hy, hcond⟩, rfl⟩
      simp only [Bool.and_eq_true, decide_eq_true_eq] at hcond
      exact ⟨y, hy, rfl, hcond.2, hcond.1⟩
    · rintro ⟨y, hy, rfl, h1, h2⟩
      exact ⟨y, ⟨hy, by simp only [Bool.and_eq_true, decide_eq_true_eq]; exact ⟨h2, h1⟩⟩, rfl⟩

/-- Witness for the amended C8 theorem at concrete operands. -/
theorem C8_amended_witness :
    List.Pairwise (· ≤ ·) [(0 : Int), 3, 7] ∧
    (((3 : Int) ∈ (intersectionDE ⟨2, 5⟩ ⟨[0, 3, 7]⟩).elems ↔
        (3 : Int) ∈ [(0 : Int), 3, 7] ∧ (3 : Int) ≤ 5) ∧
     ((1 : Int) ∈ (intersectionID ⟨[4], 3⟩ ⟨2, 5⟩).elems ↔
        ∃ y ∈ [(4 : Int)], (1 : Int) = y - 3 ∧ (2 : Int) ≤ 1 ∧ (1 : Int) ≤ 5)) :=
  ⟨by decide,
   ⟨(C8_amended_characterization ⟨2, 5⟩ ⟨[0, 3, 7]⟩ ⟨[4], 3⟩ 3 (by decide)).1,
    (C8_amended_characterization ⟨2, 5⟩ ⟨[0, 3, 7]⟩ ⟨[4], 3⟩ 1 (by decide)).2⟩⟩

/-- Lookup distributes over append when the key is found on the left. -/
theorem lookupStr_append_some (m m2 : List (String × Nat)) (s : String) (i : Nat)
    (h : lookupStr m s = some i) : lookupStr (m ++ m2) s = some i := by
  induction m with
  | nil => simp [lookupStr] at h
  | cons q t ih =>
    by_cases hq : q.1 = s
    · simp only [lookupStr, hq, if_pos] at h ⊢
      · exact h
    · simp only [lookupStr, hq, if_neg, List.cons_append, not_false_iff] at h ⊢
      exact ih h

/-- Lookup falls through to the right side when the key is absent on the left. -/
theorem lookupStr_append_none (m m2 : List (String × Nat)) (s : String)
    (h : lookupStr m s = none) : lookupStr (m ++ m2) s = lookupStr m2 s := by
  induction m with
  | nil => rfl
  | cons q t ih =>
    by_cases hq : q.1 = s
    · simp only [lookupStr, hq, if_pos] at h
      exact absurd h (by simp)
    · simp only [lookupStr, hq, if_neg, List.cons_append, not_false_iff] at h ⊢
      exact ih h

/-- The empty dictionary satisfies the invariant. -/
theorem dictInv_empty : DictInv emptyCorpus := by
  constructor
  · intro s i h
    simp [lookupStr, emptyCorpus] at h
  · intro i h
    simp [emptyCorpus] at h

/-- `insert_and_get_index` preserves the dictionary invariant. -/
theorem dictInv_insert (c : Corpus) (s : String) (h : DictInv c) :
    DictInv (insert_and_get_index c s).2 := by
  obtain ⟨h1, h2⟩ := h
  unfold insert_and_get_index
  cases hl : lookupStr c.string2index s with
  | some i => exact ⟨h1, h2⟩
  | none =>
    simp only
    constructor
    · intro t i hti
      cases hlt : lookupStr c.string2index t with
      | some j =>
        rw [lookupStr_append_some _ _ _ _ hlt] at hti
        have hji : j = i := Option.some.inj hti
        obtain ⟨hj1, hj2⟩ := h1 t j hlt
        subst hji
        refine ⟨by simp only [List.length_append, List.length_cons, List.length_nil]; omega, ?_⟩
        rw [List.getD_append _ _ _ _ hj1]
        exact hj2
      | none =>
        rw [lookupStr_append_none _ _ _ hlt] at hti
        simp only [lookupStr] at hti
        by_cases hst : s = t
        · rw [if_pos hst] at hti
          cases hti
          constructor
          · simp
          · rw [List.getD_append_right _ _ _ _ (le_refl _), Nat.sub_self]
            simpa using hst
        · rw [if_neg hst] at hti
          simp [lookupStr] at hti
    · intro i hi
      simp only [List.length_append, List.length_cons, List.length_nil] at hi
      by_cases hilt : i < c.index2string.length
      · rw [List.getD_append _ _ _ _ hilt]
        exact lookupStr_append_some _ _ _ _ (h2 i hilt)
      · have hieq : i = c.index2string.length := by omega
        subst hieq
        rw [List.getD_append_right _ _ _ _ (le_refl _), Nat.sub_self]
        show lookupStr (c.string2index ++ [(s, c.index2string.length)]) ([s].getD 0 "") =
          some c.index2string.length
        rw [List.getD_cons_zero, lookupStr_append_none _ _ _ hl]
        simp [lookupStr]

/-- After inserting `s`, looking `s` up yields the returned identifier. -/
theorem insert_lookup_self (c : Corpus) (s : String) :
    lookupStr (insert_and_get_index c s).2.string2index s =
      some (insert_and_get_index c s).1 := by
  unfold insert_and_get_index
  cases hl : lookupStr c.string2index s with
  | some i => exact hl
  | none =>
    simp only
    rw [lookupStr_append_none _ _ _ hl]
    simp [lookupStr]

/-- The returned identifier indexes the matching entry of the updated
`index2string` (round trip), and it is in range. -/
theorem insert_roundtrip (c : Corpus) (s : String) (h : DictInv c) :
    (insert_and_get_index c s).1 < (insert_and_get_index c s).2.index2string.length ∧
    (insert_and_get_index c s).2.index2string.getD (insert_and_get_index c s).1 "" = s := by
  unfold insert_and_get_index
  cases hl : lookupStr c.string2index s with
  | some i => exact h.1 s i hl
  | none =>
    simp only
    constructor
    · simp
    · rw [List.getD_append_right _ _ _ _ (le_refl _), Nat.sub_self]
      rfl

/-- Inserting twice in a row returns equal identifiers exactly for equal
strings. -/
theorem insert_inj (c : Corpus) (s1 s2 : String) (h : DictInv c) :
    ((insert_and_get_index (insert_and_get_index c s1).2 s2).1 =
      (insert_and_get_index c s1).1) ↔ s1 = s2 := by
  have h1 : DictInv (insert_and_get_index c s1).2 := dictInv_insert c s1 h
  have hself := insert_lookup_self c s1
  have hrt := insert_roundtrip c s1 h
  constructor
  · intro heq
    -- use the invariant of the updated corpus on the second lookup
    conv at heq => rw [insert_and_get_index]
    revert heq
    cases hl2 : lookupStr (insert_and_get_index c s1).2.string2index s2 with
    | some j =>
      intro heq
      simp only at heq
      subst heq
      obtain ⟨-, hj2⟩ := h1.1 s2 _ hl2
      -- index2string of the updated corpus at i1 is s1 by the round trip
      have hs1 : (insert_and_get_index c s1).2.index2string.getD
          (insert_and_get_index c s1).1 "" = s1 := hrt.2
      rw [hs1] at hj2
      exact hj2
    | none =>
      intro heq
      simp only at heq
      -- the fresh identifier equals the current length, but i1 is in range
      have hlt := hrt.1
      -- the second insert starts from the updated corpus
      omega
  · intro heq
    subst heq
    rw [insert_and_get_index, hself]

/-- The invariant is preserved along any insertion sequence. -/
theorem dictInv_insertAll (ss : List String) (c : Corpus) (h : DictInv c) :
    DictInv (insertAll c ss) := by
  induction ss generalizing c with
  | nil => exact h
  | cons s t ih => exact ih _ (dictInv_insert c s h)

/-- Under the invariant, a string has a mapped identifier exactly when it is
listed in `index2string`. -/
theorem lookup_mem_iff (c : Corpus) (h : DictInv c) (s : String) :
    (∃ i, lookupStr c.string2index s = some i) ↔ s ∈ c.index2string := by
  constructor
  · rintro ⟨i, hi⟩
    obtain ⟨hb, he⟩ := h.1 s i hi
    rw [← he, List.getD_eq_getElem _ _ hb]
    exact List.getElem_mem _
  · intro hs
    obtain ⟨n, hn, hsn⟩ := List.mem_iff_getElem.1 hs
    refine ⟨n, ?_⟩
    have h2 := h.2 n hn
    rwa [List.getD_eq_getElem _ _ hn, hsn] at h2

/-- Inserting extends `index2string` exactly when the string is new. -/
theorem insert_index2string (c : Corpus) (s : String) (h : DictInv c) :
    (insert_and_get_index c s).2.index2string =
      if s ∈ c.index2string then c.index2string else c.index2string ++ [s] := by
  unfold insert_and_get_index
  cases hl : lookupStr c.string2index s with
  | some i =>
    have hmem : s ∈ c.index2string := (lookup_mem_iff c h s).1 ⟨i, hl⟩
    simp [hmem]
  | none =>
    have hmem : s ∉ c.index2string := by
      intro hs
      obtain ⟨i, hi⟩ := (lookup_mem_iff c h s).2 hs
      rw [hl] at hi
      cases hi
    simp [hmem]

/-- Along any insertion sequence, `index2string` accumulates exactly the
distinct strings in order of first occurrence. -/
theorem insertAll_index2string_general (ss : List String) (c : Corpus) (h : DictInv c) :
    (insertAll c ss).index2string =
      ss.foldl (fun acc s => if s ∈ acc then acc else acc ++ [s]) c.index2string := by
  induction ss generalizing c with
  | nil => rfl
  | cons s t ih =>
    show (insertAll (insert_and_get_index c s).2 t).index2string = _
    rw [ih _ (dictInv_insert c s h), insert_index2string c s h]
    simp [List.foldl_cons]

/-- C9: in a corpus built by successive `insert_and_get_index` calls starting
from the empty dictionary, `index2string` lists the distinct inserted strings
in first-insertion order — hence after `N` distinct strings the identifier
space is exactly `0..N-1`, densely assigned in insertion order; the
identifier returned for any string indexes that very string (round trip);
and two successive insertions return the same identifier exactly when the
strings are equal. -/
theorem C9_dictionary_invariants (ss : List String) (s s1 s2 : String) :
    (insertAll emptyCorpus ss).index2string = firstOccurs ss ∧
    ((insert_and_get_index (insertAll emptyCorpus ss) s).1 <
        (insert_and_get_index (insertAll emptyCorpus ss) s).2.index2string.length ∧
     (insert_and_get_index (insertAll emptyCorpus ss) s).2.index2string.getD
        (insert_and_get_index (insertAll emptyCorpus ss) s).1 "" = s) ∧
    ((insert_and_get_index (insert_and_get_index (insertAll emptyCorpus ss) s1).2 s2).1 =
        (insert_and_get_index (insertAll emptyCorpus ss) s1).1 ↔ s1 = s2) := by
  have h := dictInv_insertAll ss emptyCorpus dictInv_empty
  exact ⟨insertAll_index2string_general ss emptyCorpus dictInv_empty,
         insert_roundtrip _ s h, insert_inj _ s1 s2 h⟩

/-- The empty body contains no brackets. -/
theorem noBracket_nil : NoBracket [] := fun x hx => absurd hx (List.not_mem_nil x)

/-- Unfolding `NoBracket` over a cons cell. -/
theorem noBracket_cons (ch : Char) (body : List Char) :
    NoBracket (ch :: body) ↔ (ch ≠ '[' ∧ ch ≠ ']') ∧ NoBracket body := by
  constructor
  · intro h
    exact ⟨h ch (List.mem_cons_self _ _), fun x hx => h x (List.mem_cons_of_mem _ hx)⟩
  · rintro ⟨h1, h2⟩ x hx
    rcases List.mem_cons.1 hx with rfl | hx
    · exact h1
    · exact h2 x hx

/-- The only well-formed decomposition of the empty string is the empty one. -/
theorem wf_nil_iff (cs : List (List Char)) : WellFormed [] cs ↔ cs = [] := by
  constructor
  · intro h
    cases h
    rfl
  · rintro rfl
    exact WellFormed.nil

/-- Inversion for well-formedness at a cons cell: the head character is
either junk or opens a clause. -/
theorem wf_cons_cases (ch : Char) (rest : List Char) (cs : List (List Char))
    (h : WellFormed (ch :: rest) cs) :
    (ch ≠ '[' ∧ ch ≠ ']' ∧ WellFormed rest cs) ∨
    (ch = '[' ∧ ∃ body r cs2, rest = body ++ ']' :: r ∧ NoBracket body ∧
      WellFormed r cs2 ∧ cs = body :: cs2) := by
  cases h with
  | junk ch2 r cs2 g1 g2 g3 => exact Or.inl ⟨g1, g2, g3⟩
  | clause body r cs2 hnb hwf => exact Or.inr ⟨rfl, body, r, cs2, rfl, hnb, hwf, rfl⟩

/-- A cons list equal to `body ++ ']' :: r` with a non-bracket head forces
the body to begin with that head. -/
theorem cons_eq_append_rbrack (ch : Char) (rest body r : List Char)
    (h : ch :: rest = body ++ ']' :: r) (hch : ch ≠ ']') :
    ∃ body2, body = ch :: body2 ∧ rest = body2 ++ ']' :: r := by
  cases body with
  | nil =>
    simp only [List.nil_append, List.cons.injEq] at h
    exact absurd h.1 hch
  | cons b bt =>
    simp only [List.cons_append, List.cons.injEq] at h
    exact ⟨bt, by rw [h.1], h.2⟩

/-- Joint characterization of the two scanner states of `split_clauses_go`,
by induction on the input length: outside a clause, success means the
remaining input is well-formed and appends its clauses to the accumulator;
inside a clause, success means the remaining input closes the current body
(bracket-free) and continues well-formed. -/
theorem split_go_spec (n : Nat) :
    (∀ l : List Char, l.length ≤ n → ∀ acc cs,
        split_clauses_go acc [] false l = .ok cs ↔
          ∃ cs2, WellFormed l cs2 ∧ cs = acc ++ cs2) ∧
    (∀ l : List Char, l.length ≤ n → ∀ acc cur cs,
        split_clauses_go acc cur true l = .ok cs ↔
          ∃ body r cs2, l = body ++ ']' :: r ∧ NoBracket body ∧ WellFormed r cs2 ∧
            cs = acc ++ (cur ++ body) :: cs2) := by
  induction n with
  | zero =>
    constructor
    · intro l hl acc cs
      have hnil : l = [] := List.length_eq_zero.1 (Nat.le_zero.1 hl)
      subst hnil
      constructor
      · intro h
        simp only [split_clauses_go] at h
        cases h
        exact ⟨[], WellFormed.nil, by simp⟩
      · rintro ⟨cs2, hwf, rfl⟩
        rw [(wf_nil_iff cs2).1 hwf]
        simp [split_clauses_go]
    · intro l hl acc cur cs
      have hnil : l = [] := List.length_eq_zero.1 (Nat.le_zero.1 hl)
      subst hnil
      constructor
      · intro h
        simp [split_clauses_go] at h
      · rintro ⟨body, r, cs2, habs, -, -, -⟩
        cases body <;> simp at habs
  | succ n ih =>
    obtain ⟨ihO, ihI⟩ := ih
    constructor
    · intro l hl acc cs
      cases l with
      | nil => exact ihO [] (by simp) acc cs
      | cons ch rest =>
        have hrest : rest.length ≤ n := by simpa using hl
        by_cases hbr1 : ch = '['
        · subst hbr1
          have hred : split_clauses_go acc [] false ('[' :: rest) =
              split_clauses_go acc [] true rest := by
            simp [split_clauses_go]
          rw [hred, ihI rest hrest acc [] cs]
          constructor
          · rintro ⟨body, r, cs2, rfl, hnb, hwf, rfl⟩
            exact ⟨body :: cs2, WellFormed.clause body r cs2 hnb hwf, by simp⟩
          · rintro ⟨cs2, hwf, rfl⟩
            rcases wf_cons_cases _ _ _ hwf with ⟨habs, -, -⟩ | ⟨-, body, r, cs3, hr, hnb, hwf2, rfl⟩
            · exact absurd rfl habs
            · exact ⟨body, r, cs3, hr, hnb, hwf2, by simp⟩
        · by_cases hbr2 : ch = ']'
          · subst hbr2
            have hred : split_clauses_go acc [] false (']' :: rest) =
                .error .unmatched := by
              simp [split_clauses_go]
            rw [hred]
            constructor
            · intro h
              cases h
            · rintro ⟨cs2, hwf, rfl⟩
              rcases wf_cons_cases _ _ _ hwf with ⟨-, habs, -⟩ | ⟨habs, -⟩
              · exact absurd rfl habs
              · exact absurd habs (by decide)
          · have hred : split_clauses_go acc [] false (ch :: rest) =
                split_clauses_go acc [] false rest := by
              simp [split_clauses_go, hbr1, hbr2]
            rw [hred, ihO rest hrest acc cs]
            constructor
            · rintro ⟨cs2, hwf, rfl⟩
              exact ⟨cs2, WellFormed.junk ch rest cs2 hbr1 hbr2 hwf, rfl⟩
            · rintro ⟨cs2, hwf, rfl⟩
              rcases wf_cons_cases _ _ _ hwf with ⟨-, -, hwf2⟩ | ⟨habs, -⟩
              · exact ⟨cs2, hwf2, rfl⟩
              · exact absurd habs hbr1
    · intro l hl acc cur cs
      cases l with
      | nil => exact ihI [] (by simp) acc cur cs
      | cons ch rest =>
        have hrest : rest.length ≤ n := by simpa using hl
        by_cases hbr1 : ch = '['
        · subst hbr1
          have hred : split_clauses_go acc cur true ('[' :: rest) =
              .error .nested := by
            simp [split_clauses_go]
          rw [hred]
          constructor
          · intro h
            cases h
          · rintro ⟨body, r, cs2, hdec, hnb, -, -⟩
            cases body with
            | nil =>
              simp only [List.nil_append, List.cons.injEq] at hdec
              exact absurd hdec.1 (by decide)
            | cons b bt =>
              simp only [List.cons_append, List.cons.injEq] at hdec
              have hb := ((noBracket_cons b bt).1 hnb).1.1
              exact (hb hdec.1.symm).elim
        · by_cases hbr2 : ch = ']'
          · subst hbr2
            have hred : split_clauses_go acc cur true (']' :: rest) =
                split_clauses_go (acc ++ [cur]) [] false rest := by
              simp [split_clauses_go]
            rw [hred, ihO rest hrest (acc ++ [cur]) cs]
            constructor
            · rintro ⟨cs2, hwf, rfl⟩
              exact ⟨[], rest, cs2, rfl, noBracket_nil, hwf, by simp⟩
            · rintro ⟨body, r, cs2, hdec, hnb, hwf, rfl⟩
              cases body with
              | nil =>
                simp only [List.nil_append, List.cons.injEq] at hdec
                exact ⟨cs2, hdec.2 ▸ hwf, by simp⟩
              | cons b bt =>
                simp only [List.cons_append, List.cons.injEq] at hdec
                have := ((noBracket_cons b bt).1 hnb).1.2
                exact absurd hdec.1.symm this
          · have hred : split_clauses_go acc cur true (ch :: rest) =
                split_clauses_go acc (cur ++ [ch]) true rest := by
              simp [split_clauses_go, hbr1, hbr2]
            rw [hred, ihI rest hrest acc (cur ++ [ch]) cs]
            constructor
            · rintro ⟨body, r, cs2, rfl, hnb, hwf, rfl⟩
              refine ⟨ch :: body, r, cs2, rfl, ?_, hwf, by simp⟩
              exact (noBracket_cons ch body).2 ⟨⟨hbr1, hbr2⟩, hnb⟩
            · rintro ⟨body, r, cs2, hdec, hnb, hwf, rfl⟩
              obtain ⟨body2, rfl, hrest2⟩ := cons_eq_append_rbrack ch rest body r hdec hbr2
              refine ⟨body2, r, cs2, hrest2, ((noBracket_cons ch body2).1 hnb).2, hwf, by simp⟩

/-- C10: `split_clauses` succeeds exactly on well-formed inputs — strings
decomposable into junk characters (no brackets, contributing nothing) and
bracketed bracket-free clause bodies — and then returns exactly the clause
bodies in order.  Reading the negation: it raises an error exactly when an
opening bracket occurs inside a clause (`nested`), a closing bracket occurs
outside one (`unmatched`), or a clause is still open at the end of the input
(`unclosed`); characters outside clauses are discarded and never cause an
error nor contribute to a clause. -/
theorem C10_split_clauses_characterization (text : List Char) (cs : List (List Char)) :
    split_clauses text = .ok cs ↔ WellFormed text cs := by
  rw [split_clauses, (split_go_spec text.length).1 text (le_refl _) [] cs]
  constructor
  · rintro ⟨cs2, hwf, rfl⟩
    simpa using hwf
  · intro hwf
    exact ⟨cs, hwf, by simp⟩
